import Mathlib

/-!
# Verification of the fec-data donor-resolution core

This file gives a shallow embedding, in Lean 4, of the core algorithms of the
`front-seat/fec-data` repository, and proves (or refutes) the behavioral
claims made about them in the project's specification.

Embedded components (with their Python sources):

* `MessyNicknamesManager._merge_names`    (src/server/data/names/nicknames.py)
* `NicknamesManager.get_related_names`     (src/server/data/names/nicknames.py)
* `ZipCodeManager.get_city_states`         (src/server/data/usps.py)
* `AreaCodeManager.get_city_states`        (src/server/data/npa.py)
* `RefineContactProvider.wrap_contact`     (src/server/data/contacts/refine.py)
* `AlternativeContactsHelper.get_alternatives`,
  `ContributionSummaryManager._summaries_for_contact`,
  `ContributionSummaryManager.preferred_summary_for_contact`,
  `ContributionSummary`                    (src/server/data/summaries.py)
* `ContributionSummary.new` / `.add`       (src/server/data/fec/contributions.py)
* `ContactContributionSearcher.search_and_summarize`,
  `ContactContributionSearcher.search_and_summarize_contacts`
                                           (src/server/data/search.py)

Python `while` loops are embedded with an explicit fuel argument (the fuel is
always sufficient, which is proved where needed); Python sets of strings
become `Finset String` (generalized to `Finset α` with decidable equality for
the clustering code); Python `Decimal` money amounts become exact integer
counts of the smallest currency unit (`ℤ`, matching the integer
`amount_cents` storage in src/server/data/models.py); Python `None`
becomes `Option.none`; functions that would raise on a violated `assert`
instead take the assertion as a theorem hypothesis.
-/

/-! ## Contacts (src/server/data/contacts/__init__.py, src/server/data/phone.py) -/

/-- Python `get_npa_id` (src/server/data/phone.py): the area code of an
E164-formatted phone number, or `none` when the string does not start with
`+1` or is not exactly 12 characters long. String operations are carried out
on the underlying character list. -/
def getNpaId (e164 : String) : Option String :=
  if e164.data.take 2 = ['+', '1'] ∧ e164.data.length = 12 then
    some (String.mk ((e164.data.drop 2).take 3))
  else
    none

/-- The `Contact` dataclass (src/server/data/contacts/__init__.py).

The field `import_id` is modelled from the spec: the contact adapters
(`abbu.py`, `google.py`, `linkedin.py`) and `search.py` read and write
`contact.import_id`, but the `Contact` dataclass under src/ does not declare
the field; the spec (§3, §6) states that a Contact carries an `import_id`
uniquely tagging contacts that originate from the same source row. -/
structure Contact where
  first_name : String
  last_name : String
  city : Option String
  state : Option String
  phone : Option String  -- must be in the E164 format
  zip_code : Option String  -- either 5 or 9 digits
  import_id : String
deriving DecidableEq, Repr

namespace Contact

/-- Python `Contact.zip5`: `self.zip_code[:5] if self.zip_code else None`
(the empty string is falsy, hence yields `none`). -/
def zip5 (c : Contact) : Option String :=
  match c.zip_code with
  | some z => if z = "" then none else some (String.mk (z.data.take 5))
  | none => none

/-- Python `Contact.without_zip`. -/
def without_zip (c : Contact) : Contact := { c with zip_code := none }

/-- Python `Contact.with_city_state`. -/
def with_city_state (c : Contact) (city state : String) : Contact :=
  { c with city := some city, state := some state }

/-- Python `Contact.has_zip`: `self.zip_code is not None`. -/
def has_zip (c : Contact) : Bool := c.zip_code.isSome

/-- Python `Contact.has_city_state`:
`self.city is not None and self.state is not None`. -/
def has_city_state (c : Contact) : Bool := c.city.isSome && c.state.isSome

/-- Python `Contact.npa_id`:
`get_npa_id(self.phone) if self.phone else None` (`""` is falsy). -/
def npa_id (c : Contact) : Option String :=
  match c.phone with
  | some p => if p = "" then none else getNpaId p
  | none => none

/-- Python `Contact.has_us_phone`: `self.npa_id is not None`. -/
def has_us_phone (c : Contact) : Bool := c.npa_id.isSome

/-- Python `Contact.duplicate_key` (src/server/data/contacts/__init__.py):
the `(first_name, last_name, city, state)` tuple (the code asserts that city
and state are set; here the `Option` values are carried through). -/
def duplicate_key (c : Contact) : String × String × Option String × Option String :=
  (c.first_name, c.last_name, c.city, c.state)

/-- Modelled from the spec: `Contact.variant_id` is read by
`search.py` but is not defined anywhere under src/. The spec (§4.8 step 2 and
the glossary entry "Identity key") defines the dedup identity key of a variant
as the `(last_name, first_name, city, state)` tuple, which is also the
information content of `Contact.duplicate_key` under src/. -/
def variant_id (c : Contact) : String × String × Option String × Option String :=
  (c.last_name, c.first_name, c.city, c.state)

end Contact

/-! ## Nickname clustering (src/server/data/names/nicknames.py)

`MessyNicknamesManager._merge_names` repeatedly scans all pairs of name sets,
merging two sets whenever they intersect, until a full pass makes no merge.
The two nested `while` loops become structural recursions; the outer
`while True:` loop gets a fuel argument (each merging pass shortens the list,
so `names.length` passes always suffice; this is proved below). -/

section Clustering

variable {α : Type} [DecidableEq α]

/-- The inner `while index2 < len(names)` loop of `_merge_names`, for a fixed
`index`: scan the sets after `names[index]` (here `s`); whenever one
intersects `s`, union it into `s` and delete it; otherwise keep it.
Returns the grown set, the surviving later sets, and whether any merge
happened. -/
def absorb (s : Finset α) : List (Finset α) → Finset α × List (Finset α) × Bool
  | [] => (s, [], false)
  | t :: ts =>
    if (s ∩ t).Nonempty then
      let r := absorb (s ∪ t) ts
      (r.1, r.2.1, true)
    else
      let r := absorb s ts
      (r.1, t :: r.2.1, r.2.2)

/-- One full pass of the outer `while index < len(names)` loop of
`_merge_names`: process position 0 with `absorb`, then recurse on the
surviving remainder. Returns the new list and the pass's `merged` flag.
The recursion is on a fuel bound (the `absorb` result is never longer than
its input, so `l.length` fuel suffices). -/
def mergePassF : Nat → List (Finset α) → List (Finset α) × Bool
  | _, [] => ([], false)
  | 0, l => (l, false)
  | fuel + 1, s :: rest =>
    let a := absorb s rest
    let p := mergePassF fuel a.2.1
    (a.1 :: p.1, a.2.2 || p.2)

/-- The outer `while True:` loop of `_merge_names`: run passes until one
reports no merge. Fueled: every merging pass strictly shortens the list, so
`l.length` iterations always reach the fixed point (proved below). -/
def mergeLoopF : Nat → List (Finset α) → List (Finset α)
  | 0, l => l
  | fuel + 1, l =>
    let p := mergePassF l.length l
    if p.2 then mergeLoopF fuel p.1 else p.1

/-- Python `MessyNicknamesManager._merge_names`
(src/server/data/names/nicknames.py, lines 78-98). -/
def mergeNames (l : List (Finset α)) : List (Finset α) :=
  mergeLoopF l.length l

/-- The union of all name sets in a list. -/
def listUnion (l : List (Finset α)) : Finset α := l.foldr (· ∪ ·) ∅

end Clustering

/-! ## Nickname lookups (src/server/data/names/nicknames.py, `NicknamesManager`) -/

/-- One step of Python `str.title()` over a character list: an alphabetic
character is uppercased when it begins a run of alphabetic characters and
lowercased otherwise (ASCII behaviour; the repository's name data is ASCII). -/
def titleAux : Bool → List Char → List Char
  | _, [] => []
  | prevAlpha, ch :: rest =>
    if ch.isAlpha then
      (if prevAlpha then ch.toLower else ch.toUpper) :: titleAux true rest
    else
      ch :: titleAux false rest

/-- Python `str.title()` as used by `NicknamesManager.get_index`. -/
def pythonTitle (s : String) : String := String.mk (titleAux false s.data)

/-- Python `NicknamesManager.get_index`: look the title-cased name up in the
`name_to_index` dict. For valid data (a name in only one set — `_index_names`
raises otherwise) the dict maps each name to the index of the unique set that
contains it, i.e. the first such index. -/
def nicknamesGetIndex (names : List (Finset String)) (name : String) : Option Nat :=
  names.findIdx? (fun s => pythonTitle name ∈ s)

/-- Python `NicknamesManager.get_names_for_index`: out-of-range indices give
the empty set. -/
def getNamesForIndex (names : List (Finset String)) (index : Nat) : Finset String :=
  names.getD index ∅

/-- Python `NicknamesManager.get_related_names`
(src/server/data/names/nicknames.py, lines 247-256). -/
def nicknamesGetRelatedNames (names : List (Finset String)) (name : String) : Finset String :=
  match nicknamesGetIndex names name with
  | none => ∅
  | some index => getNamesForIndex names index

/-! ## Zip code lookups (src/server/data/usps.py) -/

/-- The `ZipCodeDetail` dataclass (src/server/data/usps.py). -/
structure ZipCodeDetail where
  zip5 : String
  city : String
  state : String
deriving DecidableEq, Repr

/-- Python `ZipCodeManager.get_details`: reject lengths other than 5 and 9,
then look the first five characters up in the zip5 index (a dict of sets
built from the detail list; an absent key gives the empty set) and sort the
matching details by city. The set is embedded as the deduplicated sublist of
matching details. -/
def zipGetDetails (details : List ZipCodeDetail) (zip_code : String) : List ZipCodeDetail :=
  if zip_code.data.length = 5 ∨ zip_code.data.length = 9 then
    ((details.filter (fun d => d.zip5 = String.mk (zip_code.data.take 5))).dedup).mergeSort
      (fun d1 d2 => d1.city ≤ d2.city)
  else
    []

/-- Python `ZipCodeManager.get_city_states` (src/server/data/usps.py,
lines 62-73). -/
def zipGetCityStates (details : List ZipCodeDetail) (zip_code : String) : List (String × String) :=
  (zipGetDetails details zip_code).map (fun d => (d.city, d.state))

/-! ## Area code lookups (src/server/data/npa.py) -/

/-- The `AreaCode` dataclass (src/server/data/npa.py). -/
structure AreaCode where
  npa_id : String
  city : String
  state : String
deriving DecidableEq, Repr

/-- Python `AreaCodeManager.get_area_codes`: look the NPA id up in the
`_npa_id_to_area_codes` dict of sets (built by grouping the area-code list by
NPA id); an absent key gives the empty collection. The set is embedded as the
deduplicated sublist of matching entries. -/
def getAreaCodes (area_codes : List AreaCode) (npa_id : String) : List AreaCode :=
  (area_codes.filter (fun a => a.npa_id = npa_id)).dedup

/-- Python `AreaCodeManager.get_city_states` (src/server/data/npa.py,
lines 84-89): every matching entry's (city, state) pair, with no filtering. -/
def areaGetCityStates (area_codes : List AreaCode) (npa_id : String) : List (String × String) :=
  (getAreaCodes area_codes npa_id).map (fun a => (a.city, a.state))

/-! ## Refining contact providers (src/server/data/contacts/refine.py) -/

/-- Python `RefineContactProvider.wrap_contact`
(src/server/data/contacts/refine.py, lines 85-103). The zip-code and
area-code providers are the two lookup capabilities the class is constructed
with. Note the phone branch keeps only entries whose city and state are both
truthy (non-empty), and that a contact with no geography data at all is
yielded unchanged. -/
def wrapContact (area_code_provider : String → List AreaCode)
    (zip_code_provider : String → List (String × String)) (c : Contact) : List Contact :=
  if c.has_city_state then [c]
  else if c.has_zip then
    -- `zip5 = contact.zip5; assert zip5` (present because has_zip holds)
    (zip_code_provider (c.zip5.getD "")).map (fun p => c.with_city_state p.1 p.2)
  else
    match c.npa_id with
    | some npa =>
      ((area_code_provider npa).filter (fun a => a.city ≠ "" ∧ a.state ≠ "")).map
        (fun a => c.with_city_state a.city a.state)
    | none => [c]

/-! ## Contribution summaries (src/server/data/summaries.py)

Money amounts: the Python code in summaries.py sums `Decimal` amounts, and
the repository's row storage (src/server/data/models.py) keeps
`amount_cents : int`. Amounts are embedded as exact integer counts of the
smallest currency unit (`ℤ`); every claim about summaries depends only on
this ordered additive structure. -/

/-- A committee as seen by `summaries.py` via `contribution.committee`.
The `adjusted_party` accessor read by `summaries.py` is modelled from the
spec: `models.Committee` under src/ does not define `adjusted_party`, and the
spec (§3) gives Committee a nullable `party`, with a null bucket for unknown
party (§4.6). -/
structure Committee where
  id : String
  name : String
  adjusted_party : Option String
deriving DecidableEq, Repr

/-- A contribution row joined with its committee, as consumed by
`ContributionSummary` (src/server/data/summaries.py). -/
structure Contribution where
  id : String
  committee : Committee
  amount : ℤ
deriving DecidableEq, Repr

/-- Python `ContributionSummary` (src/server/data/summaries.py, lines 14-105):
a wrapper around the list of matched contributions; all aggregates are
computed from the list. -/
structure ContributionSummary where
  contributions : List Contribution
deriving DecidableEq, Repr

namespace ContributionSummary

/-- Python `ContributionSummary.total`: the sum of all contribution amounts
(`or Decimal(0)` only replaces a falsy zero by `Decimal(0)`, which is the
same value). -/
def total (s : ContributionSummary) : ℤ :=
  (s.contributions.map (fun x => x.amount)).sum

/-- Python `ContributionSummary.committees`: the set of committees that
received contributions, embedded as the deduplicated list. -/
def committees (s : ContributionSummary) : List Committee :=
  (s.contributions.map (fun x => x.committee)).dedup

/-- Python `ContributionSummary.committee_total`. -/
def committee_total (s : ContributionSummary) (com : Committee) : ℤ :=
  ((s.contributions.filter (fun x => x.committee = com)).map (fun x => x.amount)).sum

/-- Python `ContributionSummary.parties`: the set of parties (possibly the
null party) that received contributions, embedded as the deduplicated list. -/
def parties (s : ContributionSummary) : List (Option String) :=
  (s.contributions.map (fun x => x.committee.adjusted_party)).dedup

/-- Python `ContributionSummary.party_total`. -/
def party_total (s : ContributionSummary) (p : Option String) : ℤ :=
  ((s.contributions.filter (fun x => x.committee.adjusted_party = p)).map
    (fun x => x.amount)).sum

end ContributionSummary

/-- Python `AlternativeContactsHelper.get_alternatives`
(src/server/data/summaries.py, lines 117-144), with the zip-code and
area-code providers it is constructed with abstracted as functions. -/
def getAlternatives (zip_code_provider : String → List (String × String))
    (area_code_provider : String → List (String × String)) (c : Contact) : List Contact :=
  if c.has_city_state then [c]
  else
    match c.zip_code with
    | some z => (zip_code_provider z).map (fun p => c.with_city_state p.1 p.2)
    | none =>
      match c.npa_id with
      | some npa => (area_code_provider npa).map (fun p => c.with_city_state p.1 p.2)
      | none => []

/-! ## Summary selection (src/server/data/summaries.py,
`ContributionSummaryManager`) -/

/-- The external contribution store behind `ContributionSummaryManager`.
`summaries.py` queries it through `ContributionTable.for_last_city_state_firsts`
and `ContributionTable.for_last_zip_firsts`; `ContributionTable` itself is not
defined under src/, so the two query capabilities (spec §6: a query operation
accepting last name, zip5 or city/state, and a first-name variant set) are
abstracted as functions. -/
structure ContributionStore where
  for_last_city_state_firsts : String → String → String → Finset String → List Contribution
  for_last_zip_firsts : String → String → Finset String → List Contribution

/-- Python `ContributionSummaryManager._contributions`
(src/server/data/summaries.py, lines 161-177): query by (last, city, state,
firsts) when the contact has no zip5, otherwise by (last, zip5, firsts).
The code asserts `contact.city` and `contact.state` in the first branch; the
callers' precondition hypotheses stand in for the assert. -/
def contributionsFor (store : ContributionStore) (c : Contact)
    (related_name_set : Finset String) : List Contribution :=
  match c.zip5 with
  | none =>
    store.for_last_city_state_firsts c.last_name (c.city.getD "") (c.state.getD "")
      related_name_set
  | some z => store.for_last_zip_firsts c.last_name z related_name_set

/-- Python `ContributionSummaryManager._summaries_for_contact`
(src/server/data/summaries.py, lines 179-193). The names provider
(`INamesProvider.get_related_names`, src/server/data/nicknames.py) is
abstracted as a function returning the list of related-name sets; when it
returns none, the singleton of the contact's own first name is used. A
summary is kept only when its total is strictly positive. -/
def summariesForContact (store : ContributionStore)
    (names_provider : String → List (Finset String)) (c : Contact) :
    List ContributionSummary :=
  let related0 := names_provider c.first_name
  let related_name_sets :=
    if related0.isEmpty then [({c.first_name} : Finset String)] else related0
  (related_name_sets.map
    (fun ns => ContributionSummary.mk (contributionsFor store c ns))).filter
      (fun s => 0 < s.total)

/-- Python `max(summaries, key=lambda s: s.total)` on a non-empty list (and
`None` on the empty list): CPython's `max` keeps the earlier element unless a
later one is strictly greater, so the first maximal element wins. -/
def maxByTotal : List ContributionSummary → Option ContributionSummary
  | [] => none
  | s :: rest => some (rest.foldl (fun b x => if b.total < x.total then x else b) s)

/-- The candidate contacts tried by `preferred_summary_for_contact`: the
contact itself and, when it has a zip code, also a copy without the zip. -/
def try_contacts (c : Contact) : List Contact :=
  if c.has_zip then [c, c.without_zip] else [c]

/-- Python `ContributionSummaryManager.preferred_summary_for_contact`
(src/server/data/summaries.py, lines 195-210). The leading
`assert contact.has_city_state` becomes a hypothesis of the theorems below. -/
def preferredSummaryForContact (store : ContributionStore)
    (names_provider : String → List (Finset String)) (c : Contact) :
    Option ContributionSummary :=
  maxByTotal ((try_contacts c).flatMap (summariesForContact store names_provider))

/-! ## Incremental FEC summaries (src/server/data/fec/contributions.py) -/

/-- The `Committee` dataclass of src/server/data/fec/committees.py
(`party` is `str | None`). -/
structure FecCommittee where
  id : String
  name : String
  party : Option String
deriving DecidableEq, Repr

/-- A row of the FEC individual contributions file as carried by the
`Contribution` dataclass of src/server/data/fec/contributions.py; only the
fields the summary invariant depends on are kept, with the `Decimal` amount
embedded in `ℤ` as for summaries.py. -/
structure FecContribution where
  id : String
  committee_id : String
  amount : ℤ
deriving DecidableEq, Repr

/-- A Python dict with summable values, embedded as an insertion-ordered
association list with distinct keys: `d[k] = d.get(k, 0) + a` updates the
value at an existing key in place and appends a new key at the end. -/
def bumpAssoc {κ : Type} [DecidableEq κ] (m : List (κ × ℤ)) (k : κ) (a : ℤ) :
    List (κ × ℤ) :=
  match m with
  | [] => [(k, a)]
  | (k1, v) :: rest => if k1 = k then (k1, v + a) :: rest else (k1, v) :: bumpAssoc rest k a

/-- Python `ContributionSummary` of src/server/data/fec/contributions.py:
a running total plus per-party and per-committee dicts. -/
structure FecSummary where
  total : ℤ
  by_party : List (Option String × ℤ)
  by_committee : List (String × ℤ)
deriving DecidableEq, Repr

/-- Python `ContributionSummary.new` (src/server/data/fec/contributions.py):
the summary of a single first contribution. `get_committee` is the
`IGetCommittee` capability; a missing committee files the amount under the
null party. -/
def FecSummary.new (get_committee : String → Option FecCommittee)
    (contribution : FecContribution) : FecSummary :=
  let party := (get_committee contribution.committee_id).bind (fun com => com.party)
  { total := contribution.amount
    by_party := [(party, contribution.amount)]
    by_committee := [(contribution.committee_id, contribution.amount)] }

/-- Python `ContributionSummary.add` (src/server/data/fec/contributions.py,
lines 309-319): add one contribution to the running total and to both dicts. -/
def FecSummary.add (get_committee : String → Option FecCommittee) (s : FecSummary)
    (contribution : FecContribution) : FecSummary :=
  let party := (get_committee contribution.committee_id).bind (fun com => com.party)
  { total := s.total + contribution.amount
    by_party := bumpAssoc s.by_party party contribution.amount
    by_committee := bumpAssoc s.by_committee contribution.committee_id contribution.amount }

/-- A summary built the way `ContributionsManager.contribution_summaries`
builds one: `new` on the first contribution of a group, then `add` for each
later one. -/
def FecSummary.ofGroup (get_committee : String → Option FecCommittee)
    (first : FecContribution) (rest : List FecContribution) : FecSummary :=
  rest.foldl (FecSummary.add get_committee) (FecSummary.new get_committee first)

/-! ## Batch search (src/server/data/search.py) -/

/-- The summary objects flowing through `ContactContributionSearcher`: the
batch code reads only `summary.total_cents` (src/server/data/search.py,
line 76). -/
structure SearchSummary where
  total_cents : ℤ
deriving DecidableEq, Repr

/-- Python truthiness of an optional string (`if not contact.state`). -/
def truthyStr : Option String → Bool
  | some s => s ≠ ""
  | none => false

/-- Python `ContactContributionSearcher.search_and_summarize`
(src/server/data/search.py, lines 31-44). `has_db` abstracts
`is_extant_db` (whether a per-state database partition exists) and `pref`
abstracts `preferred_summary_for_contact` of the per-state manager; `seen` is
the searcher's `_seen` set of variant ids. Returns the result and the new
seen set. -/
def searchAndSummarize (has_db : String → Bool)
    (pref : Contact → Option SearchSummary)
    (seen : Finset (String × String × Option String × Option String))
    (c : Contact) : Option SearchSummary × Finset (String × String × Option String × Option String) :=
  if c.variant_id ∈ seen then (none, seen)
  else if ¬ truthyStr c.state then (none, seen)
  else if ¬ has_db (c.state.getD "") then (none, seen)
  else
    match pref c with
    | some summary => (some summary, insert c.variant_id seen)
    | none => (none, seen)

/-- The contact loop of `search_and_summarize_contacts`: run
`search_and_summarize` on each contact in order, threading the seen set, and
collect each `(contact, result-or-none)` pair. -/
def runSearch (has_db : String → Bool) (pref : Contact → Option SearchSummary)
    (seen : Finset (String × String × Option String × Option String)) :
    List Contact →
      List (Contact × Option SearchSummary) × Finset (String × String × Option String × Option String)
  | [] => ([], seen)
  | c :: cs =>
    let r := searchAndSummarize has_db pref seen c
    let rest := runSearch has_db pref r.2 cs
    ((c, r.1) :: rest.1, rest.2)

/-- The key sequence of a Python dict filled by
`d.setdefault(k, []).append(x)` over a stream of keys: first occurrence
order, each key once. -/
def firstKeys {κ : Type} [DecidableEq κ] (l : List κ) : List κ :=
  l.foldl (fun acc k => if k ∈ acc then acc else acc ++ [k]) []

/-- The per-group scan of `search_and_summarize_contacts`
(src/server/data/search.py, lines 68-78): keep the best matched pair so far,
replacing it only when a later summary's total is strictly greater. -/
def pickBestAux (best : Option (Contact × SearchSummary)) :
    List (Contact × Option SearchSummary) → Option (Contact × SearchSummary)
  | [] => best
  | (c, r) :: rest =>
    match r with
    | none => pickBestAux best rest
    | some s =>
      match best with
      | none => pickBestAux (some (c, s)) rest
      | some b =>
        if s.total_cents > b.2.total_cents then pickBestAux (some (c, s)) rest
        else pickBestAux best rest

/-- The row emitted for one `import_id` group
(src/server/data/search.py, lines 67-82): the best matched pair when the
group has a match, otherwise the group's first variant paired with no
summary. An empty group (which never occurs) emits nothing. -/
def emitRow (group : List (Contact × Option SearchSummary)) :
    Option (Contact × Option SearchSummary) :=
  match pickBestAux none group, group with
  | some (c, s), _ => some (c, some s)
  | none, p :: _ => some (p.1, none)
  | none, [] => none

/-- Python `ContactContributionSearcher.search_and_summarize_contacts`
(src/server/data/search.py, lines 46-82): resolve every contact (threading
the seen set through the whole run, starting empty), group the results by
`import_id` in first-occurrence order, and emit one row per group. -/
def searchAndSummarizeContacts (has_db : String → Bool)
    (pref : Contact → Option SearchSummary) (contacts : List Contact) :
    List (Contact × Option SearchSummary) :=
  let results := (runSearch has_db pref ∅ contacts).1
  (firstKeys (results.map (fun p => p.1.import_id))).filterMap
    (fun id => emitRow (results.filter (fun p => p.1.import_id = id)))

/-! ## Lemmas about the clustering merge loop -/

section ClusteringLemmas

variable {α : Type} [DecidableEq α]

lemma listUnion_nil : listUnion ([] : List (Finset α)) = ∅ := rfl

lemma listUnion_cons (s : Finset α) (l : List (Finset α)) :
    listUnion (s :: l) = s ∪ listUnion l := rfl

lemma mem_listUnion {l : List (Finset α)} {x : α} :
    x ∈ listUnion l ↔ ∃ s ∈ l, x ∈ s := by
  induction l with
  | nil => simp [listUnion_nil]
  | cons s ts ih => simp [listUnion_cons, ih]

lemma absorb_snd_length_le (s : Finset α) (l : List (Finset α)) :
    (absorb s l).2.1.length ≤ l.length := by
  induction l generalizing s with
  | nil => simp [absorb]
  | cons t ts ih =>
    by_cases h : (s ∩ t).Nonempty
    · simp only [absorb, if_pos h]
      exact le_trans (ih (s ∪ t)) (Nat.le_succ _)
    · simp only [absorb, if_neg h, List.length_cons]
      exact Nat.succ_le_succ (ih s)

lemma absorb_false {s : Finset α} {l : List (Finset α)}
    (h : (absorb s l).2.2 = false) :
    (absorb s l).1 = s ∧ (absorb s l).2.1 = l ∧ ∀ t ∈ l, ¬(s ∩ t).Nonempty := by
  induction l generalizing s with
  | nil => simp [absorb]
  | cons t ts ih =>
    by_cases hst : (s ∩ t).Nonempty
    · simp [absorb, if_pos hst] at h
    · simp only [absorb, if_neg hst] at h ⊢
      obtain ⟨h1, h2, h3⟩ := ih h
      refine ⟨h1, by simp [h2], ?_⟩
      intro u hu
      rcases List.mem_cons.mp hu with rfl | hu
      · exact hst
      · exact h3 u hu

lemma absorb_of_disjoint {s : Finset α} {l : List (Finset α)}
    (h : ∀ t ∈ l, ¬(s ∩ t).Nonempty) : absorb s l = (s, l, false) := by
  induction l with
  | nil => simp [absorb]
  | cons t ts ih =>
    have hst : ¬(s ∩ t).Nonempty := h t (by simp)
    have hrest := ih (fun u hu => h u (List.mem_cons_of_mem _ hu))
    simp [absorb, if_neg hst, hrest]

lemma absorb_true_length {s : Finset α} {l : List (Finset α)}
    (h : (absorb s l).2.2 = true) : (absorb s l).2.1.length < l.length := by
  induction l generalizing s with
  | nil => simp [absorb] at h
  | cons t ts ih =>
    by_cases hst : (s ∩ t).Nonempty
    · simp only [absorb, if_pos hst]
      exact Nat.lt_succ_of_le (absorb_snd_length_le _ _)
    · simp only [absorb, if_neg hst] at h ⊢
      simpa using Nat.succ_lt_succ (ih h)

lemma absorb_union (s : Finset α) (l : List (Finset α)) :
    (absorb s l).1 ∪ listUnion (absorb s l).2.1 = s ∪ listUnion l := by
  induction l generalizing s with
  | nil => simp [absorb, listUnion_nil]
  | cons t ts ih =>
    by_cases hst : (s ∩ t).Nonempty
    · simp only [absorb, if_pos hst]
      rw [ih (s ∪ t), listUnion_cons, Finset.union_assoc]
    · simp only [absorb, if_neg hst, listUnion_cons]
      rw [Finset.union_left_comm, ih s]
      exact Finset.union_left_comm t s (listUnion ts)

lemma absorb_subset_head (s : Finset α) (l : List (Finset α)) :
    s ⊆ (absorb s l).1 := by
  induction l generalizing s with
  | nil => simp [absorb]
  | cons t ts ih =>
    by_cases hst : (s ∩ t).Nonempty
    · simp only [absorb, if_pos hst]
      exact subset_trans Finset.subset_union_left (ih (s ∪ t))
    · simpa only [absorb, if_neg hst] using ih s

lemma absorb_mem_cases (s : Finset α) (l : List (Finset α)) :
    ∀ t ∈ l, t ⊆ (absorb s l).1 ∨ t ∈ (absorb s l).2.1 := by
  induction l generalizing s with
  | nil => simp
  | cons t ts ih =>
    intro u hu
    by_cases hst : (s ∩ t).Nonempty
    · simp only [absorb, if_pos hst]
      rcases List.mem_cons.mp hu with rfl | hu
      · exact Or.inl (subset_trans Finset.subset_union_right (absorb_subset_head _ _))
      · exact ih (s ∪ t) u hu
    · simp only [absorb, if_neg hst]
      rcases List.mem_cons.mp hu with rfl | hu
      · exact Or.inr (by simp)
      · rcases ih s u hu with h | h
        · exact Or.inl h
        · exact Or.inr (by simp [h])

lemma mergePassF_length_le (fuel : Nat) (l : List (Finset α)) :
    (mergePassF fuel l).1.length ≤ l.length := by
  induction fuel generalizing l with
  | zero => cases l <;> simp [mergePassF]
  | succ fuel ih =>
    cases l with
    | nil => simp [mergePassF]
    | cons s rest =>
      simp only [mergePassF, List.length_cons]
      exact Nat.succ_le_succ (le_trans (ih _) (absorb_snd_length_le _ _))

lemma mergePassF_true_length {fuel : Nat} {l : List (Finset α)}
    (hf : l.length ≤ fuel) (h : (mergePassF fuel l).2 = true) :
    (mergePassF fuel l).1.length < l.length := by
  induction fuel generalizing l with
  | zero => cases l with
    | nil => simp [mergePassF] at h
    | cons s rest => simp at hf
  | succ fuel ih =>
    cases l with
    | nil => simp [mergePassF] at h
    | cons s rest =>
      have hrest : rest.length ≤ fuel := Nat.succ_le_succ_iff.mp (by simpa using hf)
      simp only [mergePassF, Bool.or_eq_true] at h ⊢
      have step : (mergePassF fuel (absorb s rest).2.1).1.length < rest.length ∨
          ((absorb s rest).2.1 = rest ∧
            (mergePassF fuel (absorb s rest).2.1).1.length < rest.length) := by
        rcases h with h | h
        · exact Or.inl (lt_of_le_of_lt (mergePassF_length_le _ _) (absorb_true_length h))
        · by_cases ha : (absorb s rest).2.2 = true
          · exact Or.inl (lt_of_le_of_lt (mergePassF_length_le _ _) (absorb_true_length ha))
          · obtain ⟨_, h2, _⟩ := absorb_false (by simpa using ha)
            rw [h2] at h ⊢
            exact Or.inr ⟨rfl, ih hrest h⟩
      have : (mergePassF fuel (absorb s rest).2.1).1.length < rest.length := by
        rcases step with h | ⟨_, h⟩ <;> exact h
      simpa using Nat.succ_lt_succ this

lemma mergePassF_false {fuel : Nat} {l : List (Finset α)}
    (hf : l.length ≤ fuel) (h : (mergePassF fuel l).2 = false) :
    (mergePassF fuel l).1 = l ∧ l.Pairwise (fun s t => ¬(s ∩ t).Nonempty) := by
  induction fuel generalizing l with
  | zero =>
    have : l = [] := List.length_eq_zero.mp (Nat.le_zero.mp hf)
    subst this
    simp [mergePassF]
  | succ fuel ih =>
    cases l with
    | nil => simp [mergePassF]
    | cons s rest =>
      have hrest : rest.length ≤ fuel := Nat.succ_le_succ_iff.mp (by simpa using hf)
      simp only [mergePassF, Bool.or_eq_false_iff] at h ⊢
      obtain ⟨ha, hp⟩ := h
      obtain ⟨ha1, ha2, ha3⟩ := absorb_false ha
      rw [ha2] at hp
      obtain ⟨ih1, ih2⟩ := ih hrest hp
      refine ⟨?_, List.Pairwise.cons ha3 ih2⟩
      rw [ha2, ih1, ha1]

lemma mergePassF_of_pairwise (fuel : Nat) {l : List (Finset α)}
    (h : l.Pairwise (fun s t => ¬(s ∩ t).Nonempty)) :
    mergePassF fuel l = (l, false) := by
  induction fuel generalizing l with
  | zero => cases l <;> simp [mergePassF]
  | succ fuel ih =>
    cases l with
    | nil => simp [mergePassF]
    | cons s rest =>
      rw [List.pairwise_cons] at h
      have ha := absorb_of_disjoint h.1
      simp [mergePassF, ha, ih h.2]

lemma mergePassF_union (fuel : Nat) (l : List (Finset α)) :
    listUnion (mergePassF fuel l).1 = listUnion l := by
  induction fuel generalizing l with
  | zero => cases l <;> simp [mergePassF]
  | succ fuel ih =>
    cases l with
    | nil => simp [mergePassF]
    | cons s rest =>
      simp only [mergePassF]
      rw [listUnion_cons, ih, absorb_union, listUnion_cons]

lemma mergePassF_exists_superset (fuel : Nat) (l : List (Finset α)) :
    ∀ s0 ∈ l, ∃ u ∈ (mergePassF fuel l).1, s0 ⊆ u := by
  induction fuel generalizing l with
  | zero =>
    intro s0 hs0
    cases l with
    | nil => simp at hs0
    | cons s rest => exact ⟨s0, by simpa [mergePassF] using hs0, subset_rfl⟩
  | succ fuel ih =>
    intro s0 hs0
    cases l with
    | nil => simp at hs0
    | cons s rest =>
      simp only [mergePassF]
      rcases List.mem_cons.mp hs0 with rfl | hs0
      · exact ⟨(absorb s0 rest).1, by simp, absorb_subset_head _ _⟩
      · rcases absorb_mem_cases s rest s0 hs0 with hsub | hmem
        · exact ⟨(absorb s rest).1, by simp, hsub⟩
        · obtain ⟨u, hu, hsu⟩ := ih (absorb s rest).2.1 s0 hmem
          exact ⟨u, by simp [hu], hsu⟩

lemma mergeLoopF_union (fuel : Nat) (l : List (Finset α)) :
    listUnion (mergeLoopF fuel l) = listUnion l := by
  induction fuel generalizing l with
  | zero => rfl
  | succ fuel ih =>
    by_cases h : (mergePassF l.length l).2
    · simp only [mergeLoopF, h, if_true]
      rw [ih, mergePassF_union]
    · simp only [mergeLoopF, h, if_false]
      exact mergePassF_union _ _

lemma mergeLoopF_exists_superset (fuel : Nat) (l : List (Finset α)) :
    ∀ s0 ∈ l, ∃ u ∈ mergeLoopF fuel l, s0 ⊆ u := by
  induction fuel generalizing l with
  | zero => exact fun s0 hs0 => ⟨s0, hs0, subset_rfl⟩
  | succ fuel ih =>
    intro s0 hs0
    by_cases h : (mergePassF l.length l).2
    · simp only [mergeLoopF, h, if_true]
      obtain ⟨u1, hu1, hsu1⟩ := mergePassF_exists_superset l.length l s0 hs0
      obtain ⟨u, hu, hu1u⟩ := ih _ u1 hu1
      exact ⟨u, hu, subset_trans hsu1 hu1u⟩
    · simp only [mergeLoopF, h, if_false]
      exact mergePassF_exists_superset l.length l s0 hs0

lemma mergeLoopF_pairwise {fuel : Nat} {l : List (Finset α)} (hf : l.length ≤ fuel) :
    (mergeLoopF fuel l).Pairwise (fun s t => ¬(s ∩ t).Nonempty) := by
  induction fuel generalizing l with
  | zero =>
    have : l = [] := List.length_eq_zero.mp (Nat.le_zero.mp hf)
    subst this
    simp [mergeLoopF]
  | succ fuel ih =>
    by_cases h : (mergePassF l.length l).2
    · simp only [mergeLoopF, h, if_true]
      exact ih (Nat.le_of_lt_succ (lt_of_lt_of_le
        (mergePassF_true_length le_rfl h) hf))
    · simp only [mergeLoopF, h, if_false]
      obtain ⟨h1, h2⟩ := mergePassF_false le_rfl (by simpa using h)
      rwa [h1]

lemma mergeLoopF_of_pairwise (fuel : Nat) {l : List (Finset α)}
    (h : l.Pairwise (fun s t => ¬(s ∩ t).Nonempty)) : mergeLoopF fuel l = l := by
  cases fuel with
  | zero => rfl
  | succ fuel => simp [mergeLoopF, mergePassF_of_pairwise l.length h]

lemma mergeNames_union (l : List (Finset α)) :
    listUnion (mergeNames l) = listUnion l :=
  mergeLoopF_union l.length l

lemma mergeNames_exists_superset (l : List (Finset α)) :
    ∀ s0 ∈ l, ∃ u ∈ mergeNames l, s0 ⊆ u :=
  mergeLoopF_exists_superset l.length l

lemma mergeNames_pairwise (l : List (Finset α)) :
    (mergeNames l).Pairwise (fun s t => ¬(s ∩ t).Nonempty) :=
  mergeLoopF_pairwise le_rfl

lemma pairwise_mem_unique {r : List (Finset α)}
    (hp : r.Pairwise (fun s t => ¬(s ∩ t).Nonempty)) {u v : Finset α}
    (hu : u ∈ r) (hv : v ∈ r) {x : α} (hxu : x ∈ u) (hxv : x ∈ v) : u = v := by
  obtain ⟨i, hi⟩ := List.mem_iff_get.mp hu
  obtain ⟨j, hj⟩ := List.mem_iff_get.mp hv
  rcases lt_trichotomy i j with hij | hij | hij
  · exact absurd ⟨x, Finset.mem_inter.mpr (by rw [hi, hj]; exact ⟨hxu, hxv⟩)⟩
      (List.pairwise_iff_get.mp hp i j hij)
  · rw [← hi, ← hj, hij]
  · exact absurd ⟨x, Finset.mem_inter.mpr (by rw [hi, hj]; exact ⟨hxv, hxu⟩)⟩
      (List.pairwise_iff_get.mp hp j i hij)

end ClusteringLemmas

/-! ## Claim theorems: clustering (C1, C6, C8) -/

section ClusteringClaims

variable {α : Type} [DecidableEq α]

/-- C1. Cluster partition: after the `_merge_names` loop of
`MessyNicknamesManager` converges, the output clusters are pairwise disjoint
and cover exactly the names of the input sets; in particular every name that
appears in at least one input set belongs to exactly one output cluster
(exactly one position of the output list contains it), so no name appears in
two final clusters. -/
theorem mergeNames_cluster_partition (l : List (Finset α)) :
    (∀ x : α, (∃ s ∈ l, x ∈ s) ↔ ∃ t ∈ mergeNames l, x ∈ t) ∧
    (mergeNames l).Pairwise (fun s t => Disjoint s t) ∧
    ∀ x : α, (∃ s ∈ l, x ∈ s) →
      ∃! i : Fin (mergeNames l).length, x ∈ (mergeNames l).get i := by
  have hcov : ∀ x : α, (∃ s ∈ l, x ∈ s) ↔ ∃ t ∈ mergeNames l, x ∈ t := by
    intro x
    rw [← mem_listUnion, ← mem_listUnion, mergeNames_union]
  have hpair := mergeNames_pairwise l
  refine ⟨hcov, ?_, ?_⟩
  · exact hpair.imp (fun h =>
      Finset.disjoint_iff_inter_eq_empty.mpr (Finset.not_nonempty_iff_eq_empty.mp h))
  · intro x hx
    obtain ⟨t, ht, hxt⟩ := (hcov x).mp hx
    obtain ⟨i, hi⟩ := List.mem_iff_get.mp ht
    refine ⟨i, ?_, ?_⟩
    · show x ∈ (mergeNames l).get i
      rw [hi]; exact hxt
    intro j hj
    replace hj : x ∈ (mergeNames l).get j := hj
    rcases lt_trichotomy j i with hji | hji | hji
    · exact absurd ⟨x, Finset.mem_inter.mpr ⟨hj, by rwa [hi]⟩⟩
        (List.pairwise_iff_get.mp hpair j i hji)
    · exact hji
    · exact absurd ⟨x, Finset.mem_inter.mpr ⟨by rwa [hi], hj⟩⟩
        (List.pairwise_iff_get.mp hpair i j hji)

/-- Witness for C1 at a concrete input: the name 2 appears in the inputs
`[(1 2), (2 3), (5)]` and lies in exactly one merged cluster. -/
theorem mergeNames_cluster_partition_witness :
    ∃! i : Fin (mergeNames [({1, 2} : Finset ℕ), {2, 3}, {5}]).length,
      2 ∈ (mergeNames [({1, 2} : Finset ℕ), {2, 3}, {5}]).get i :=
  (mergeNames_cluster_partition [({1, 2} : Finset ℕ), {2, 3}, {5}]).2.2 2
    (by decide)

/-- C6. Clustering transitivity: if names A and B co-occur in one input set
and B and C co-occur in another, then any final cluster that contains A also
contains C, even when A and C never co-occur directly. -/
theorem mergeNames_transitive (l : List (Finset α)) (A B C : α)
    (s t : Finset α) (hs : s ∈ l) (hA : A ∈ s) (hB : B ∈ s)
    (ht : t ∈ l) (hB2 : B ∈ t) (hC : C ∈ t) :
    ∀ u ∈ mergeNames l, A ∈ u → C ∈ u := by
  obtain ⟨u1, hu1, hsu1⟩ := mergeNames_exists_superset l s hs
  obtain ⟨u2, hu2, htu2⟩ := mergeNames_exists_superset l t ht
  intro u hu hAu
  have hpair := mergeNames_pairwise l
  have e1 : u = u1 := pairwise_mem_unique hpair hu hu1 hAu (hsu1 hA)
  have hBu : B ∈ u := e1 ▸ hsu1 hB
  have e2 : u = u2 := pairwise_mem_unique hpair hu hu2 hBu (htu2 hB2)
  exact e2 ▸ htu2 hC

/-- Witness for C6 at a concrete input: 1 and 2 co-occur, 2 and 3 co-occur,
and the final cluster holding 1 (the head of the merged list) also holds 3. -/
theorem mergeNames_transitive_witness :
    3 ∈ (mergeNames [({1, 2} : Finset ℕ), {2, 3}]).headD ∅ :=
  mergeNames_transitive [({1, 2} : Finset ℕ), {2, 3}] 1 2 3 {1, 2} {2, 3}
    (by decide) (by decide) (by decide) (by decide) (by decide) (by decide)
    ((mergeNames [({1, 2} : Finset ℕ), {2, 3}]).headD ∅) (by decide) (by decide)

/-- C8. Clustering idempotence: re-running the merge loop on its own output
returns that output unchanged, and more generally a pass over any list of
pairwise-disjoint clusters performs no merge, returning the list itself. -/
theorem mergeNames_idempotent (l : List (Finset α)) :
    mergeNames (mergeNames l) = mergeNames l ∧
    ∀ m : List (Finset α), m.Pairwise (fun s t => Disjoint s t) → mergeNames m = m := by
  have key : ∀ m : List (Finset α),
      m.Pairwise (fun s t => ¬(s ∩ t).Nonempty) → mergeNames m = m :=
    fun m hm => mergeLoopF_of_pairwise m.length hm
  refine ⟨key _ (mergeNames_pairwise l), ?_⟩
  intro m hm
  refine key m (hm.imp ?_)
  intro s t h
  rw [Finset.not_nonempty_iff_eq_empty, ← Finset.disjoint_iff_inter_eq_empty]
  exact h

/-- Witness for C8 at a concrete input: merging the already-disjoint
partition `[(1 2), (3)]` returns it unchanged. -/
theorem mergeNames_idempotent_witness :
    mergeNames [({1, 2} : Finset ℕ), {3}] = [{1, 2}, {3}] :=
  (mergeNames_idempotent ([] : List (Finset ℕ))).2 [{1, 2}, {3}] (by decide)

end ClusteringClaims

/-! ## Claim theorems: lookups and variant expansion (C9, C10, C4) -/

/-- C9. Lookup misses are empty results: a zip5 absent from the zip table, an
NPA id absent from the area-code table, and a first name absent from the
nickname index each produce an empty lookup result (the embedded lookups are
total functions, which reflects that none of the three Python lookups can
raise on an unknown key: all three end in `dict.get(key, default)` /
bounds-checked indexing). -/
theorem lookup_miss_empty :
    (∀ (details : List ZipCodeDetail) (zip_code : String),
      (∀ d ∈ details, d.zip5 ≠ String.mk (zip_code.data.take 5)) →
      zipGetCityStates details zip_code = []) ∧
    (∀ (area_codes : List AreaCode) (npa_id : String),
      (∀ a ∈ area_codes, a.npa_id ≠ npa_id) →
      areaGetCityStates area_codes npa_id = []) ∧
    (∀ (names : List (Finset String)) (name : String),
      (∀ s ∈ names, pythonTitle name ∉ s) →
      nicknamesGetRelatedNames names name = ∅) := by
  refine ⟨?_, ?_, ?_⟩
  · intro details zip_code h
    have hf : details.filter (fun d => d.zip5 = String.mk (zip_code.data.take 5)) = [] :=
      List.filter_eq_nil_iff.mpr (fun d hd => by simpa using h d hd)
    unfold zipGetCityStates zipGetDetails
    by_cases hl : zip_code.data.length = 5 ∨ zip_code.data.length = 9
    · rw [if_pos hl, hf, List.dedup_nil, List.mergeSort_nil]
      rfl
    · rw [if_neg hl]
      rfl
  · intro area_codes npa_id h
    have hf : area_codes.filter (fun a => a.npa_id = npa_id) = [] :=
      List.filter_eq_nil_iff.mpr (fun a ha => by simpa using h a ha)
    unfold areaGetCityStates getAreaCodes
    rw [hf, List.dedup_nil]
    rfl
  · intro names name h
    have hidx : names.findIdx? (fun s => pythonTitle name ∈ s) = none :=
      List.findIdx?_eq_none_iff.mpr (fun s hs => by simpa using h s hs)
    unfold nicknamesGetRelatedNames nicknamesGetIndex
    rw [hidx]

/-- Witness for C9 at concrete unknown keys: each of the three lookups
returns an empty result. -/
theorem lookup_miss_empty_witness :
    zipGetCityStates [⟨"98101", "SEATTLE", "WA"⟩] "54321" = [] ∧
    areaGetCityStates [⟨"206", "SEATTLE", "WA"⟩] "999" = [] ∧
    nicknamesGetRelatedNames [({"Dave"} : Finset String)] "Bob" = ∅ :=
  ⟨lookup_miss_empty.1 [⟨"98101", "SEATTLE", "WA"⟩] "54321" (by decide),
   lookup_miss_empty.2.1 [⟨"206", "SEATTLE", "WA"⟩] "999" (by decide),
   lookup_miss_empty.2.2 [({"Dave"} : Finset String)] "Bob" (by decide)⟩

/-- C10 counterexample: `AreaCodeManager.get_city_states` itself does not
exclude partial entries. For a lookup table holding the single entry
(npa 206, city "", state WA), the lookup for "206" yields the partial pair
("", "WA"), whose city is empty — refuting the claim that every pair produced
by `get_city_states` has a non-empty city and state. (The exclusion happens
later, in `RefineContactProvider.wrap_contact`.) -/
theorem areaGetCityStates_yields_partial_pair :
    ("", "WA") ∈ areaGetCityStates [⟨"206", "", "WA"⟩] "206" := by decide

/-- C10 (amended). The exclusion of partial entries lives in
`RefineContactProvider.wrap_contact`, not in `get_city_states`: when a
contact is expanded through the phone branch (no city/state, no zip, an NPA
id present), every yielded variant carries a non-empty city and a non-empty
state, entries lacking either being filtered out rather than yielded. -/
theorem wrapContact_phone_no_partial_pairs
    (area_code_provider : String → List AreaCode)
    (zip_code_provider : String → List (String × String)) (c : Contact)
    (h1 : ¬ c.has_city_state = true) (h2 : ¬ c.has_zip = true)
    (h3 : c.npa_id.isSome = true) :
    ∀ v ∈ wrapContact area_code_provider zip_code_provider c,
      ∃ city st, v.city = some city ∧ v.state = some st ∧ city ≠ "" ∧ st ≠ "" := by
  intro v hv
  obtain ⟨npa, hnpa⟩ := Option.isSome_iff_exists.mp h3
  unfold wrapContact at hv
  rw [if_neg h1, if_neg h2, hnpa] at hv
  obtain ⟨a, ha, rfl⟩ := List.mem_map.mp hv
  have hpred := List.of_mem_filter ha
  simp only [decide_eq_true_eq] at hpred
  exact ⟨a.city, a.state, rfl, rfl, hpred.1, hpred.2⟩

/-- Witness for C10's amended theorem at a concrete input: a phone-only
contact expanded against a table holding one partial and one complete entry
yields (only) variants with non-empty city and state; here the head variant. -/
theorem wrapContact_phone_no_partial_pairs_witness :
    ∃ city st,
      ((wrapContact (fun _ => [⟨"206", "", "WA"⟩, ⟨"206", "TACOMA", "WA"⟩])
          (fun _ => [])
          ⟨"JON", "DOE", none, none, some "+12065551234", none, "row1"⟩).headD
        ⟨"JON", "DOE", none, none, some "+12065551234", none, "row1"⟩).city = some city ∧
      ((wrapContact (fun _ => [⟨"206", "", "WA"⟩, ⟨"206", "TACOMA", "WA"⟩])
          (fun _ => [])
          ⟨"JON", "DOE", none, none, some "+12065551234", none, "row1"⟩).headD
        ⟨"JON", "DOE", none, none, some "+12065551234", none, "row1"⟩).state = some st ∧
      city ≠ "" ∧ st ≠ "" :=
  wrapContact_phone_no_partial_pairs
    (fun _ => [⟨"206", "", "WA"⟩, ⟨"206", "TACOMA", "WA"⟩]) (fun _ => [])
    ⟨"JON", "DOE", none, none, some "+12065551234", none, "row1"⟩
    (by decide) (by decide) (by decide) _ (by decide)

/-- C4. Variant expansion priority order of
`AlternativeContactsHelper.get_alternatives`: with city and state both
present the contact itself is the only variant; otherwise with a zip code
present there is one variant per (city, state) pair from the zip-code
resolver, each a copy with only city and state changed (zip, phone and the
rest retained); otherwise with a valid North American phone number there is
one variant per pair from the area-code resolver; otherwise there are no
variants at all. -/
theorem getAlternatives_policy
    (zip_code_provider area_code_provider : String → List (String × String))
    (c : Contact) :
    (c.has_city_state = true →
      getAlternatives zip_code_provider area_code_provider c = [c]) ∧
    (¬ c.has_city_state = true → ∀ z, c.zip_code = some z →
      getAlternatives zip_code_provider area_code_provider c =
        (zip_code_provider z).map
          (fun p => { c with city := some p.1, state := some p.2 })) ∧
    (¬ c.has_city_state = true → c.zip_code = none → ∀ npa, c.npa_id = some npa →
      getAlternatives zip_code_provider area_code_provider c =
        (area_code_provider npa).map
          (fun p => { c with city := some p.1, state := some p.2 })) ∧
    (¬ c.has_city_state = true → c.zip_code = none → c.npa_id = none →
      getAlternatives zip_code_provider area_code_provider c = []) := by
  refine ⟨?_, ?_, ?_, ?_⟩
  · intro h
    unfold getAlternatives
    rw [if_pos h]
  · intro h z hz
    unfold getAlternatives
    rw [if_neg h, hz]
    simp [Contact.with_city_state, hz]
  · intro h hz npa hnpa
    unfold getAlternatives
    rw [if_neg h, hz, hnpa]
    simp [Contact.with_city_state, hz]
  · intro h hz hnpa
    unfold getAlternatives
    rw [if_neg h, hz, hnpa]

/-- Witness for C4, exercising all four branches of the policy at concrete
contacts: a complete contact, a zip-only contact, a phone-only contact, and a
contact with no geography signal at all. -/
theorem getAlternatives_policy_witness :
    (getAlternatives (fun _ => [("SEATTLE", "WA")]) (fun _ => [("TACOMA", "WA")])
        ⟨"A", "B", some "SEATTLE", some "WA", none, some "98101", "r1"⟩ =
      [⟨"A", "B", some "SEATTLE", some "WA", none, some "98101", "r1"⟩]) ∧
    (getAlternatives (fun _ => [("SEATTLE", "WA")]) (fun _ => [("TACOMA", "WA")])
        ⟨"A", "B", none, none, none, some "98101", "r2"⟩ =
      ((fun (_ : String) => [("SEATTLE", "WA")]) "98101").map
        (fun p => { (⟨"A", "B", none, none, none, some "98101", "r2"⟩ : Contact) with
          city := some p.1, state := some p.2 })) ∧
    (getAlternatives (fun _ => [("SEATTLE", "WA")]) (fun _ => [("TACOMA", "WA")])
        ⟨"A", "B", none, none, some "+12065551234", none, "r3"⟩ =
      ((fun (_ : String) => [("TACOMA", "WA")]) "206").map
        (fun p => { (⟨"A", "B", none, none, some "+12065551234", none, "r3"⟩ : Contact) with
          city := some p.1, state := some p.2 })) ∧
    (getAlternatives (fun _ => [("SEATTLE", "WA")]) (fun _ => [("TACOMA", "WA")])
        ⟨"A", "B", none, none, none, none, "r4"⟩ = []) :=
  ⟨(getAlternatives_policy (fun _ => [("SEATTLE", "WA")]) (fun _ => [("TACOMA", "WA")])
      ⟨"A", "B", some "SEATTLE", some "WA", none, some "98101", "r1"⟩).1 (by decide),
   (getAlternatives_policy (fun _ => [("SEATTLE", "WA")]) (fun _ => [("TACOMA", "WA")])
      ⟨"A", "B", none, none, none, some "98101", "r2"⟩).2.1 (by decide) "98101" rfl,
   (getAlternatives_policy (fun _ => [("SEATTLE", "WA")]) (fun _ => [("TACOMA", "WA")])
      ⟨"A", "B", none, none, some "+12065551234", none, "r3"⟩).2.2.1 (by decide) rfl
      "206" (by decide),
   (getAlternatives_policy (fun _ => [("SEATTLE", "WA")]) (fun _ => [("TACOMA", "WA")])
      ⟨"A", "B", none, none, none, none, "r4"⟩).2.2.2 (by decide) rfl rfl⟩

/-! ## Claim theorems: summary additivity (C3) -/

lemma sum_map_update {κ : Type} [DecidableEq κ] {ks : List κ} {k0 : κ} (a : ℤ)
    (f : κ → ℤ) (hnd : ks.Nodup) (hk : k0 ∈ ks) :
    (ks.map (fun k => if k = k0 then a + f k else f k)).sum = a + (ks.map f).sum := by
  induction ks with
  | nil => simp at hk
  | cons k ks ih =>
    rcases List.mem_cons.mp hk with heq | hk0
    · have hnotin : k0 ∉ ks := fun hmem => (List.nodup_cons.mp hnd).1 (heq ▸ hmem)
      simp only [List.map_cons, List.sum_cons, if_pos heq.symm]
      have hcongr : ks.map (fun k2 => if k2 = k0 then a + f k2 else f k2) = ks.map f :=
        List.map_congr_left (fun x hx => if_neg (fun he : x = k0 => hnotin (he ▸ hx)))
      rw [hcongr, add_assoc]
    · have hne : k ≠ k0 := fun he => (List.nodup_cons.mp hnd).1 (he ▸ hk0)
      simp only [List.map_cons, List.sum_cons, if_neg hne]
      rw [ih (List.nodup_cons.mp hnd).2 hk0]
      ring

lemma sum_fiberwise_eq {α κ : Type} [DecidableEq κ] (l : List α) (key : α → κ)
    (amt : α → ℤ) (ks : List κ) (hnd : ks.Nodup) (hcov : ∀ x ∈ l, key x ∈ ks) :
    (ks.map (fun k => ((l.filter (fun x => key x = k)).map amt).sum)).sum =
      (l.map amt).sum := by
  induction l with
  | nil => simp
  | cons x xs ih =>
    have hterm : ∀ k : κ,
        (((x :: xs).filter (fun y => key y = k)).map amt).sum =
          if k = key x then amt x + ((xs.filter (fun y => key y = k)).map amt).sum
          else ((xs.filter (fun y => key y = k)).map amt).sum := by
      intro k
      by_cases hk : key x = k
      · subst hk
        simp [List.filter_cons]
      · rw [List.filter_cons, if_neg (by simpa using hk), if_neg (fun he => hk he.symm)]
    calc (ks.map (fun k => (((x :: xs).filter (fun y => key y = k)).map amt).sum)).sum
        = (ks.map (fun k =>
            if k = key x then amt x + ((xs.filter (fun y => key y = k)).map amt).sum
            else ((xs.filter (fun y => key y = k)).map amt).sum)).sum := by
          rw [List.map_congr_left (fun k _ => hterm k)]
      _ = amt x + (ks.map (fun k => ((xs.filter (fun y => key y = k)).map amt).sum)).sum := by
          exact sum_map_update (amt x)
            (fun k => ((xs.filter (fun y => key y = k)).map amt).sum) hnd
            (hcov x (List.mem_cons_self x xs))
      _ = amt x + (xs.map amt).sum := by
          rw [ih (fun y hy => hcov y (List.mem_cons_of_mem x hy))]
      _ = ((x :: xs).map amt).sum := by simp

lemma bumpAssoc_values_sum {κ : Type} [DecidableEq κ] (m : List (κ × ℤ)) (k : κ)
    (a : ℤ) :
    ((bumpAssoc m k a).map (fun kv => kv.2)).sum = (m.map (fun kv => kv.2)).sum + a := by
  induction m with
  | nil => simp [bumpAssoc]
  | cons kv rest ih =>
    obtain ⟨k1, v⟩ := kv
    by_cases h : k1 = k
    · simp only [bumpAssoc, if_pos h, List.map_cons, List.sum_cons]
      ring
    · simp only [bumpAssoc, if_neg h, List.map_cons, List.sum_cons, ih]
      ring

lemma fec_add_inv (get_committee : String → Option FecCommittee) (s : FecSummary)
    (contribution : FecContribution)
    (h1 : s.total = (s.by_party.map (fun kv => kv.2)).sum)
    (h2 : s.total = (s.by_committee.map (fun kv => kv.2)).sum) :
    (s.add get_committee contribution).total =
        ((s.add get_committee contribution).by_party.map (fun kv => kv.2)).sum ∧
      (s.add get_committee contribution).total =
        ((s.add get_committee contribution).by_committee.map (fun kv => kv.2)).sum := by
  unfold FecSummary.add
  constructor
  · rw [bumpAssoc_values_sum, ← h1]
  · rw [bumpAssoc_values_sum, ← h2]

lemma fec_foldl_inv (get_committee : String → Option FecCommittee)
    (rest : List FecContribution) :
    ∀ s : FecSummary,
      s.total = (s.by_party.map (fun kv => kv.2)).sum →
      s.total = (s.by_committee.map (fun kv => kv.2)).sum →
      (rest.foldl (FecSummary.add get_committee) s).total =
          ((rest.foldl (FecSummary.add get_committee) s).by_party.map
            (fun kv => kv.2)).sum ∧
        (rest.foldl (FecSummary.add get_committee) s).total =
          ((rest.foldl (FecSummary.add get_committee) s).by_committee.map
            (fun kv => kv.2)).sum := by
  induction rest with
  | nil => exact fun s h1 h2 => ⟨h1, h2⟩
  | cons x xs ih =>
    intro s h1 h2
    obtain ⟨h1', h2'⟩ := fec_add_inv get_committee s x h1 h2
    simpa using ih (s.add get_committee x) h1' h2'

/-- C3. Summary additivity: for a non-empty contribution set, the
summaries.py `ContributionSummary` has
`total = sum of party_total over the parties present (null included)
       = sum of committee_total over the committees present`,
and the incrementally built fec summary (`new` then repeated `add`)
satisfies `total = sum(by_party.values()) = sum(by_committee.values())`. -/
theorem summary_additivity :
    (∀ s : ContributionSummary, s.contributions ≠ [] →
      s.total = (s.parties.map (fun p => s.party_total p)).sum ∧
      s.total = (s.committees.map (fun com => s.committee_total com)).sum) ∧
    (∀ (get_committee : String → Option FecCommittee) (first : FecContribution)
        (rest : List FecContribution),
      (FecSummary.ofGroup get_committee first rest).total =
          ((FecSummary.ofGroup get_committee first rest).by_party.map
            (fun kv => kv.2)).sum ∧
        (FecSummary.ofGroup get_committee first rest).total =
          ((FecSummary.ofGroup get_committee first rest).by_committee.map
            (fun kv => kv.2)).sum) := by
  constructor
  · intro s _
    constructor
    · exact (sum_fiberwise_eq s.contributions
        (fun x => x.committee.adjusted_party) (fun x => x.amount) _
        (List.nodup_dedup _)
        (fun x hx => List.mem_dedup.mpr (List.mem_map.mpr ⟨x, hx, rfl⟩))).symm
    · exact (sum_fiberwise_eq s.contributions
        (fun x => x.committee) (fun x => x.amount) _
        (List.nodup_dedup _)
        (fun x hx => List.mem_dedup.mpr (List.mem_map.mpr ⟨x, hx, rfl⟩))).symm
  · intro get_committee first rest
    exact fec_foldl_inv get_committee rest (FecSummary.new get_committee first)
      (by simp [FecSummary.new]) (by simp [FecSummary.new])

/-- Witness for C3 at a concrete non-empty record set: two contributions to
different committees, one with a known party and one with an unknown party. -/
theorem summary_additivity_witness :
    (ContributionSummary.mk
        [⟨"t1", ⟨"C1", "ALPHA PAC", some "DEM"⟩, 30⟩,
         ⟨"t2", ⟨"C2", "BETA PAC", none⟩, 70⟩]).total =
      ((ContributionSummary.mk
        [⟨"t1", ⟨"C1", "ALPHA PAC", some "DEM"⟩, 30⟩,
         ⟨"t2", ⟨"C2", "BETA PAC", none⟩, 70⟩]).parties.map
          (fun p => (ContributionSummary.mk
            [⟨"t1", ⟨"C1", "ALPHA PAC", some "DEM"⟩, 30⟩,
             ⟨"t2", ⟨"C2", "BETA PAC", none⟩, 70⟩]).party_total p)).sum ∧
    (ContributionSummary.mk
        [⟨"t1", ⟨"C1", "ALPHA PAC", some "DEM"⟩, 30⟩,
         ⟨"t2", ⟨"C2", "BETA PAC", none⟩, 70⟩]).total =
      ((ContributionSummary.mk
        [⟨"t1", ⟨"C1", "ALPHA PAC", some "DEM"⟩, 30⟩,
         ⟨"t2", ⟨"C2", "BETA PAC", none⟩, 70⟩]).committees.map
          (fun com => (ContributionSummary.mk
            [⟨"t1", ⟨"C1", "ALPHA PAC", some "DEM"⟩, 30⟩,
             ⟨"t2", ⟨"C2", "BETA PAC", none⟩, 70⟩]).committee_total com)).sum :=
  summary_additivity.1
    (ContributionSummary.mk
      [⟨"t1", ⟨"C1", "ALPHA PAC", some "DEM"⟩, 30⟩,
       ⟨"t2", ⟨"C2", "BETA PAC", none⟩, 70⟩]) (by decide)

/-! ## Claim theorems: preferred summary selection (C2) -/

lemma foldl_pick_mem (xs : List ContributionSummary) :
    ∀ b : ContributionSummary,
      xs.foldl (fun b x => if b.total < x.total then x else b) b ∈ b :: xs := by
  induction xs with
  | nil => intro b; simp
  | cons x xs ih =>
    intro b
    rw [List.foldl_cons]
    by_cases hbx : b.total < x.total
    · rw [if_pos hbx]
      rcases List.mem_cons.mp (ih x) with h | h
      · simp [h]
      · simp [h]
    · rw [if_neg hbx]
      rcases List.mem_cons.mp (ih b) with h | h
      · simp [h]
      · simp [h]

lemma foldl_pick_ge (xs : List ContributionSummary) :
    ∀ b : ContributionSummary,
      b.total ≤ (xs.foldl (fun b x => if b.total < x.total then x else b) b).total ∧
      ∀ x ∈ xs,
        x.total ≤ (xs.foldl (fun b x => if b.total < x.total then x else b) b).total := by
  induction xs with
  | nil => intro b; simp
  | cons x xs ih =>
    intro b
    rw [List.foldl_cons]
    obtain ⟨ihb, ihxs⟩ := ih (if b.total < x.total then x else b)
    have hb : b.total ≤ (if b.total < x.total then x else b).total := by
      by_cases hbx : b.total < x.total
      · rw [if_pos hbx]; exact le_of_lt hbx
      · rw [if_neg hbx]
    have hx : x.total ≤ (if b.total < x.total then x else b).total := by
      by_cases hbx : b.total < x.total
      · rw [if_pos hbx]
      · rw [if_neg hbx]; exact le_of_not_lt hbx
    refine ⟨le_trans hb ihb, ?_⟩
    intro y hy
    rcases List.mem_cons.mp hy with rfl | hy
    · exact le_trans hx ihb
    · exact ihxs y hy

lemma maxByTotal_mem {l : List ContributionSummary} {s : ContributionSummary}
    (h : maxByTotal l = some s) : s ∈ l := by
  cases l with
  | nil => simp [maxByTotal] at h
  | cons x xs =>
    simp only [maxByTotal, Option.some.injEq] at h
    rw [← h]
    exact foldl_pick_mem xs x

lemma maxByTotal_ge {l : List ContributionSummary} {s : ContributionSummary}
    (h : maxByTotal l = some s) : ∀ t ∈ l, t.total ≤ s.total := by
  cases l with
  | nil => simp [maxByTotal] at h
  | cons x xs =>
    simp only [maxByTotal, Option.some.injEq] at h
    intro t ht
    rw [← h]
    rcases List.mem_cons.mp ht with rfl | ht
    · exact (foldl_pick_ge xs t).1
    · exact (foldl_pick_ge xs x).2 t ht

lemma maxByTotal_eq_none_iff (l : List ContributionSummary) :
    maxByTotal l = none ↔ l = [] := by
  cases l <;> simp [maxByTotal]

lemma mem_summariesForContact_pos {store : ContributionStore}
    {names_provider : String → List (Finset String)} {tc : Contact}
    {s : ContributionSummary} (h : s ∈ summariesForContact store names_provider tc) :
    0 < s.total := by
  unfold summariesForContact at h
  have := List.of_mem_filter h
  simpa using this

/-- C2. Selector maximality with zero-discard: for a contact whose city and
state are populated (the code's `assert contact.has_city_state`),
`preferred_summary_for_contact` returns a strictly-positive-total summary
that is maximal among all summaries produced over every candidate contact
(the contact itself plus, when it has a zip, its zip-stripped copy) and every
first-name variant set; it returns `none` exactly when no such combination
produces a strictly positive total. A zero-or-negative-total summary is never
returned. -/
theorem preferredSummary_max (store : ContributionStore)
    (names_provider : String → List (Finset String)) (c : Contact)
    (hcity : c.city.isSome = true) (hstate : c.state.isSome = true) :
    (∀ s, preferredSummaryForContact store names_provider c = some s →
      0 < s.total ∧
      s ∈ (try_contacts c).flatMap (summariesForContact store names_provider) ∧
      ∀ tc ∈ try_contacts c, ∀ t ∈ summariesForContact store names_provider tc,
        t.total ≤ s.total) ∧
    (preferredSummaryForContact store names_provider c = none ↔
      ∀ tc ∈ try_contacts c, summariesForContact store names_provider tc = []) := by
  constructor
  · intro s hs
    unfold preferredSummaryForContact at hs
    have hmem := maxByTotal_mem hs
    obtain ⟨tc, _, hstc⟩ := List.mem_flatMap.mp hmem
    refine ⟨mem_summariesForContact_pos hstc, hmem, ?_⟩
    intro tc2 htc2 t ht
    exact maxByTotal_ge hs t (List.mem_flatMap.mpr ⟨tc2, htc2, ht⟩)
  · unfold preferredSummaryForContact
    rw [maxByTotal_eq_none_iff]
    constructor
    · intro hnil tc htc
      rcases List.eq_nil_iff_forall_not_mem.mp hnil with h
      rcases hsum : summariesForContact store names_provider tc with _ | ⟨t, ts⟩
      · rfl
      · exact absurd (List.mem_flatMap.mpr ⟨tc, htc, hsum ▸ List.mem_cons_self t ts⟩)
          (h _)
    · intro hall
      rcases hflat : (try_contacts c).flatMap (summariesForContact store names_provider)
        with _ | ⟨t, ts⟩
      · rfl
      · obtain ⟨tc, htc, hstc⟩ :=
          List.mem_flatMap.mp (hflat ▸ List.mem_cons_self t ts)
        rw [hall tc htc] at hstc
        simp at hstc

/-- Witness for C2 at a concrete input: a contact with city, state and zip;
the store matches only the zip-qualified query for the variant set holding
JON, producing a 120-cent summary, which the selector returns; it is
positive and lies among the candidate summaries. -/
theorem preferredSummary_max_witness :
    0 < (ContributionSummary.mk [⟨"t1", ⟨"C1", "ALPHA PAC", some "DEM"⟩, 120⟩]).total ∧
    ContributionSummary.mk [⟨"t1", ⟨"C1", "ALPHA PAC", some "DEM"⟩, 120⟩] ∈
      (try_contacts ⟨"JON", "SMITH", some "SEATTLE", some "WA", none, some "98101", "r"⟩).flatMap
        (summariesForContact
          ⟨fun _ _ _ _ => [],
           fun _ _ ns => if "JON" ∈ ns then [⟨"t1", ⟨"C1", "ALPHA PAC", some "DEM"⟩, 120⟩] else []⟩
          (fun _ => [({"JON"} : Finset String)])) :=
  let store : ContributionStore :=
    ⟨fun _ _ _ _ => [],
     fun _ _ ns => if "JON" ∈ ns then [⟨"t1", ⟨"C1", "ALPHA PAC", some "DEM"⟩, 120⟩] else []⟩
  have happ := (preferredSummary_max store (fun _ => [({"JON"} : Finset String)])
    ⟨"JON", "SMITH", some "SEATTLE", some "WA", none, some "98101", "r"⟩
    (by decide) (by decide)).1
    (ContributionSummary.mk [⟨"t1", ⟨"C1", "ALPHA PAC", some "DEM"⟩, 120⟩]) (by decide)
  ⟨happ.1, happ.2.1⟩

/-! ## Claim theorems: batch dedup (C7) -/

/-- C7. Batch dedup via identity keys: within one run,
`search_and_summarize` skips a variant whose identity key is already in the
seen set (returning no match and leaving the set unchanged), and it records
the identity key as seen exactly when the selector found a (positive) match
for that variant; in every other outcome (no state, no database partition,
or no match) the result is no match and the seen set is unchanged. -/
theorem searchAndSummarize_dedup (has_db : String → Bool)
    (pref : Contact → Option SearchSummary)
    (seen : Finset (String × String × Option String × Option String))
    (c : Contact) :
    (c.variant_id ∈ seen → searchAndSummarize has_db pref seen c = (none, seen)) ∧
    (c.variant_id ∉ seen →
      ((searchAndSummarize has_db pref seen c).1 = none ∧
        (searchAndSummarize has_db pref seen c).2 = seen) ∨
      (∃ s, pref c = some s ∧
        (searchAndSummarize has_db pref seen c).1 = some s ∧
        (searchAndSummarize has_db pref seen c).2 = insert c.variant_id seen)) := by
  constructor
  · intro h
    unfold searchAndSummarize
    rw [if_pos h]
  · intro h
    unfold searchAndSummarize
    rw [if_neg h]
    by_cases hst : truthyStr c.state = true
    · rw [if_neg (not_not_intro hst)]
      by_cases hdb : has_db (c.state.getD "") = true
      · rw [if_neg (not_not_intro hdb)]
        cases hp : pref c with
        | none => exact Or.inl ⟨rfl, rfl⟩
        | some s => exact Or.inr ⟨s, rfl, rfl, rfl⟩
      · rw [if_pos hdb]
        exact Or.inl ⟨rfl, rfl⟩
    · rw [if_pos hst]
      exact Or.inl ⟨rfl, rfl⟩

/-- Witness for C7 at concrete inputs: a variant whose key is already seen is
skipped with the seen set unchanged, and a fresh variant that matches has its
result returned (the skip/record disjunction holds at the fresh variant). -/
theorem searchAndSummarize_dedup_witness :
    (searchAndSummarize (fun _ => true) (fun _ => some ⟨100⟩)
        {("SMITH", "JON", some "SEATTLE", some "WA")}
        ⟨"JON", "SMITH", some "SEATTLE", some "WA", none, none, "r"⟩ =
      (none, {("SMITH", "JON", some "SEATTLE", some "WA")})) ∧
    (((searchAndSummarize (fun _ => true) (fun _ => some ⟨100⟩) ∅
        ⟨"JON", "SMITH", some "SEATTLE", some "WA", none, none, "r"⟩).1 = none ∧
      (searchAndSummarize (fun _ => true) (fun _ => some ⟨100⟩) ∅
        ⟨"JON", "SMITH", some "SEATTLE", some "WA", none, none, "r"⟩).2 = ∅) ∨
     (∃ s, (fun _ : Contact => some (⟨100⟩ : SearchSummary))
          ⟨"JON", "SMITH", some "SEATTLE", some "WA", none, none, "r"⟩ = some s ∧
        (searchAndSummarize (fun _ => true) (fun _ => some ⟨100⟩) ∅
          ⟨"JON", "SMITH", some "SEATTLE", some "WA", none, none, "r"⟩).1 = some s ∧
        (searchAndSummarize (fun _ => true) (fun _ => some ⟨100⟩) ∅
          ⟨"JON", "SMITH", some "SEATTLE", some "WA", none, none, "r"⟩).2 =
          insert (Contact.variant_id
            ⟨"JON", "SMITH", some "SEATTLE", some "WA", none, none, "r"⟩) ∅)) :=
  ⟨(searchAndSummarize_dedup (fun _ => true) (fun _ => some ⟨100⟩)
      {("SMITH", "JON", some "SEATTLE", some "WA")}
      ⟨"JON", "SMITH", some "SEATTLE", some "WA", none, none, "r"⟩).1 (by decide),
   (searchAndSummarize_dedup (fun _ => true) (fun _ => some ⟨100⟩) ∅
      ⟨"JON", "SMITH", some "SEATTLE", some "WA", none, none, "r"⟩).2 (by decide)⟩

/-! ## Claim theorems: batch output completeness and best-pick (C5) -/

lemma runSearch_map_fst (has_db : String → Bool) (pref : Contact → Option SearchSummary) :
    ∀ (contacts : List Contact) (seen : Finset (String × String × Option String × Option String)),
      ((runSearch has_db pref seen contacts).1).map Prod.fst = contacts := by
  intro contacts
  induction contacts with
  | nil => intro seen; rfl
  | cons c cs ih =>
    intro seen
    simp only [runSearch, List.map_cons]
    rw [ih]

lemma firstKeys_aux_mem {κ : Type} [DecidableEq κ] (l : List κ) :
    ∀ (acc : List κ) (a : κ),
      (a ∈ l.foldl (fun acc k => if k ∈ acc then acc else acc ++ [k]) acc ↔
        a ∈ acc ∨ a ∈ l) := by
  induction l with
  | nil => intro acc a; simp
  | cons k ks ih =>
    intro acc a
    rw [List.foldl_cons]
    by_cases hk : k ∈ acc
    · rw [if_pos hk, ih]
      constructor
      · rintro (h | h)
        · exact Or.inl h
        · exact Or.inr (List.mem_cons_of_mem _ h)
      · rintro (h | h)
        · exact Or.inl h
        · rcases List.mem_cons.mp h with rfl | h
          · exact Or.inl hk
          · exact Or.inr h
    · rw [if_neg hk, ih]
      constructor
      · rintro (h | h)
        · rcases List.mem_append.mp h with h | h
          · exact Or.inl h
          · simp only [List.mem_singleton] at h
            exact Or.inr (h ▸ List.mem_cons_self _ _)
        · exact Or.inr (List.mem_cons_of_mem _ h)
      · rintro (h | h)
        · exact Or.inl (List.mem_append.mpr (Or.inl h))
        · rcases List.mem_cons.mp h with rfl | h
          · exact Or.inl (List.mem_append.mpr (Or.inr (by simp)))
          · exact Or.inr h

lemma firstKeys_mem {κ : Type} [DecidableEq κ] (l : List κ) (a : κ) :
    a ∈ firstKeys l ↔ a ∈ l := by
  unfold firstKeys
  rw [firstKeys_aux_mem]
  simp

lemma firstKeys_aux_nodup {κ : Type} [DecidableEq κ] (l : List κ) :
    ∀ acc : List κ, acc.Nodup →
      (l.foldl (fun acc k => if k ∈ acc then acc else acc ++ [k]) acc).Nodup := by
  induction l with
  | nil => intro acc h; simpa using h
  | cons k ks ih =>
    intro acc h
    rw [List.foldl_cons]
    by_cases hk : k ∈ acc
    · rw [if_pos hk]; exact ih acc h
    · rw [if_neg hk]
      refine ih (acc ++ [k]) ?_
      rw [List.nodup_append]
      exact ⟨h, List.nodup_singleton k, by simpa [List.disjoint_singleton] using hk⟩

lemma firstKeys_nodup {κ : Type} [DecidableEq κ] (l : List κ) : (firstKeys l).Nodup :=
  firstKeys_aux_nodup l [] List.nodup_nil

lemma pickBestAux_some_ne_none (l : List (Contact × Option SearchSummary)) :
    ∀ x : Contact × SearchSummary, pickBestAux (some x) l ≠ none := by
  induction l with
  | nil => intro x h; exact Option.noConfusion h
  | cons p rest ih =>
    intro x
    obtain ⟨c, r⟩ := p
    cases r with
    | none => exact ih x
    | some s =>
      simp only [pickBestAux]
      by_cases hgt : s.total_cents > x.2.total_cents
      · rw [if_pos hgt]; exact ih (c, s)
      · rw [if_neg hgt]; exact ih x

lemma pickBestAux_none_eq (l : List (Contact × Option SearchSummary)) :
    pickBestAux none l = none ↔ ∀ p ∈ l, p.2 = none := by
  induction l with
  | nil => simp [pickBestAux]
  | cons p rest ih =>
    obtain ⟨c, r⟩ := p
    cases r with
    | none =>
      simp only [pickBestAux]
      rw [ih]
      constructor
      · intro h p hp
        rcases List.mem_cons.mp hp with rfl | hp
        · rfl
        · exact h p hp
      · intro h p hp
        exact h p (List.mem_cons_of_mem _ hp)
    | some s =>
      constructor
      · intro h
        exact absurd h (pickBestAux_some_ne_none rest (c, s))
      · intro h
        have := h (c, some s) (List.mem_cons_self _ _)
        exact Option.noConfusion this

lemma pickBestAux_spec (l : List (Contact × Option SearchSummary)) :
    ∀ (b : Contact × SearchSummary) (c : Contact) (s : SearchSummary),
      pickBestAux (some b) l = some (c, s) →
      ((c, s) = b ∨ (c, some s) ∈ l) ∧ b.2.total_cents ≤ s.total_cents ∧
      ∀ p ∈ l, ∀ s2, p.2 = some s2 → s2.total_cents ≤ s.total_cents := by
  induction l with
  | nil =>
    intro b c s h
    simp only [pickBestAux, Option.some.injEq] at h
    exact ⟨Or.inl h.symm, by subst h; exact le_refl _, by simp⟩
  | cons p rest ih =>
    intro b c s h
    obtain ⟨c1, r⟩ := p
    cases r with
    | none =>
      obtain ⟨hor, hle, hall⟩ := ih b c s h
      refine ⟨?_, hle, ?_⟩
      · rcases hor with h1 | h1
        · exact Or.inl h1
        · exact Or.inr (List.mem_cons_of_mem _ h1)
      · intro p hp s2 hs2
        rcases List.mem_cons.mp hp with rfl | hp
        · exact Option.noConfusion hs2
        · exact hall p hp s2 hs2
    | some s1 =>
      simp only [pickBestAux] at h
      by_cases hgt : s1.total_cents > b.2.total_cents
      · rw [if_pos hgt] at h
        obtain ⟨hor, hle, hall⟩ := ih (c1, s1) c s h
        refine ⟨?_, le_trans (le_of_lt hgt) hle, ?_⟩
        · rcases hor with h1 | h1
          · injection h1 with hc hs
            subst hc
            subst hs
            exact Or.inr (List.mem_cons_self _ _)
          · exact Or.inr (List.mem_cons_of_mem _ h1)
        · intro p hp s2 hs2
          rcases List.mem_cons.mp hp with rfl | hp
          · cases hs2
            exact hle
          · exact hall p hp s2 hs2
      · rw [if_neg hgt] at h
        obtain ⟨hor, hle, hall⟩ := ih b c s h
        refine ⟨?_, hle, ?_⟩
        · rcases hor with h1 | h1
          · exact Or.inl h1
          · exact Or.inr (List.mem_cons_of_mem _ h1)
        · intro p hp s2 hs2
          rcases List.mem_cons.mp hp with rfl | hp
          · cases hs2
            exact le_trans (le_of_not_lt hgt) hle
          · exact hall p hp s2 hs2

lemma pickBestAux_start_none (l : List (Contact × Option SearchSummary)) :
    ∀ (c : Contact) (s : SearchSummary),
      pickBestAux none l = some (c, s) →
      (c, some s) ∈ l ∧
      ∀ p ∈ l, ∀ s2, p.2 = some s2 → s2.total_cents ≤ s.total_cents := by
  induction l with
  | nil => intro c s h; exact Option.noConfusion h
  | cons p rest ih =>
    intro c s h
    obtain ⟨c1, r⟩ := p
    cases r with
    | none =>
      obtain ⟨hmem, hall⟩ := ih c s h
      refine ⟨List.mem_cons_of_mem _ hmem, ?_⟩
      intro p hp s2 hs2
      rcases List.mem_cons.mp hp with rfl | hp
      · exact Option.noConfusion hs2
      · exact hall p hp s2 hs2
    | some s1 =>
      obtain ⟨hor, hle, hall⟩ := pickBestAux_spec rest (c1, s1) c s h
      refine ⟨?_, ?_⟩
      · rcases hor with h1 | h1
        · injection h1 with hc hs
          subst hc
          subst hs
          exact List.mem_cons_self _ _
        · exact List.mem_cons_of_mem _ h1
      · intro p hp s2 hs2
        rcases List.mem_cons.mp hp with rfl | hp
        · cases hs2
          exact hle
        · exact hall p hp s2 hs2

lemma emitRow_spec (g : List (Contact × Option SearchSummary)) (hg : g ≠ []) :
    ∃ row, emitRow g = some row ∧ (∃ p ∈ g, p.1 = row.1) ∧
      ((∃ s, row.2 = some s ∧ (row.1, some s) ∈ g ∧
          ∀ p ∈ g, ∀ s2, p.2 = some s2 → s2.total_cents ≤ s.total_cents) ∨
        (row.2 = none ∧ (∀ p ∈ g, p.2 = none) ∧
          g.head?.map Prod.fst = some row.1)) := by
  cases hpick : pickBestAux none g with
  | some cs =>
    obtain ⟨c, s⟩ := cs
    obtain ⟨hmem, hall⟩ := pickBestAux_start_none g c s hpick
    exact ⟨(c, some s), by simp [emitRow, hpick], ⟨(c, some s), hmem, rfl⟩,
      Or.inl ⟨s, rfl, hmem, hall⟩⟩
  | none =>
    cases g with
    | nil => exact absurd rfl hg
    | cons p0 rest =>
      have hall := (pickBestAux_none_eq _).mp hpick
      exact ⟨(p0.1, none), by simp [emitRow, hpick],
        ⟨p0, List.mem_cons_self _ _, rfl⟩, Or.inr ⟨rfl, hall, by simp⟩⟩

lemma emit_filterMap_ids (results : List (Contact × Option SearchSummary)) :
    ∀ ks : List String, (∀ id ∈ ks, ∃ p ∈ results, p.1.import_id = id) →
      (ks.filterMap
          (fun id => emitRow (results.filter (fun p => p.1.import_id = id)))).map
        (fun r => r.1.import_id) = ks := by
  intro ks
  induction ks with
  | nil => intro _; rfl
  | cons id ks ih =>
    intro hcov
    obtain ⟨p, hp, hpid⟩ := hcov id (List.mem_cons_self _ _)
    have hgne : results.filter (fun p => p.1.import_id = id) ≠ [] := by
      intro hnil
      have hmem : p ∈ results.filter (fun p => p.1.import_id = id) :=
        List.mem_filter.mpr ⟨hp, by simp [hpid]⟩
      rw [hnil] at hmem
      exact absurd hmem (List.not_mem_nil p)
    obtain ⟨row, hrow, ⟨q, hq, hq1⟩, _⟩ := emitRow_spec _ hgne
    have hrowid : row.1.import_id = id := by
      have hqf := List.mem_filter.mp hq
      have h2 : q.1.import_id = id := by simpa using hqf.2
      rw [← hq1, h2]
    simp only [List.filterMap_cons, hrow, List.map_cons]
    rw [ih (fun i hi => hcov i (List.mem_cons_of_mem _ hi)), hrowid]

/-- C5. Batch output completeness and best-pick: the batch resolver emits
exactly one row per distinct `import_id` (the emitted ids are exactly the
distinct input ids, each once); a row with a summary carries a pair from its
`import_id` group whose total is maximal among the group's matched results,
and a row without a summary means its whole group is unmatched and the row
carries the group's first variant. -/
theorem searchAndSummarizeContacts_best (has_db : String → Bool)
    (pref : Contact → Option SearchSummary) (contacts : List Contact) :
    (searchAndSummarizeContacts has_db pref contacts).map (fun r => r.1.import_id) =
        firstKeys (contacts.map Contact.import_id) ∧
    ((searchAndSummarizeContacts has_db pref contacts).map
        (fun r => r.1.import_id)).Nodup ∧
    ∀ r ∈ searchAndSummarizeContacts has_db pref contacts,
      (∃ s, r.2 = some s ∧
          (r.1, some s) ∈ (runSearch has_db pref ∅ contacts).1.filter
            (fun p => p.1.import_id = r.1.import_id) ∧
          ∀ p ∈ (runSearch has_db pref ∅ contacts).1.filter
              (fun p => p.1.import_id = r.1.import_id),
            ∀ s2, p.2 = some s2 → s2.total_cents ≤ s.total_cents) ∨
      (r.2 = none ∧
        (∀ p ∈ (runSearch has_db pref ∅ contacts).1.filter
            (fun p => p.1.import_id = r.1.import_id), p.2 = none) ∧
        ((runSearch has_db pref ∅ contacts).1.filter
            (fun p => p.1.import_id = r.1.import_id)).head?.map Prod.fst =
          some r.1) := by
  have hfst : ((runSearch has_db pref ∅ contacts).1).map Prod.fst = contacts :=
    runSearch_map_fst has_db pref contacts ∅
  have hids : ((runSearch has_db pref ∅ contacts).1).map (fun p => p.1.import_id) =
      contacts.map Contact.import_id := by
    calc ((runSearch has_db pref ∅ contacts).1).map (fun p => p.1.import_id)
        = (((runSearch has_db pref ∅ contacts).1).map Prod.fst).map
            Contact.import_id := by rw [List.map_map]; rfl
      _ = contacts.map Contact.import_id := by rw [hfst]
  have hcov : ∀ id ∈ firstKeys (((runSearch has_db pref ∅ contacts).1).map
      (fun p => p.1.import_id)),
      ∃ p ∈ (runSearch has_db pref ∅ contacts).1, p.1.import_id = id := by
    intro id hid
    have hid2 := (firstKeys_mem _ _).mp hid
    obtain ⟨p, hp, hpe⟩ := List.mem_map.mp hid2
    exact ⟨p, hp, hpe⟩
  have hout : searchAndSummarizeContacts has_db pref contacts =
      (firstKeys (((runSearch has_db pref ∅ contacts).1).map
        (fun p => p.1.import_id))).filterMap
        (fun id => emitRow ((runSearch has_db pref ∅ contacts).1.filter
          (fun p => p.1.import_id = id))) := rfl
  have hmap := emit_filterMap_ids (runSearch has_db pref ∅ contacts).1
    (firstKeys (((runSearch has_db pref ∅ contacts).1).map (fun p => p.1.import_id)))
    hcov
  refine ⟨?_, ?_, ?_⟩
  · rw [hout, hmap, hids]
  · rw [hout, hmap]
    exact firstKeys_nodup _
  · intro r hr
    rw [hout] at hr
    obtain ⟨id, hid, hemit⟩ := List.mem_filterMap.mp hr
    have hgne : (runSearch has_db pref ∅ contacts).1.filter
        (fun p => p.1.import_id = id) ≠ [] := by
      obtain ⟨p, hp, hpid⟩ := hcov id hid
      intro hnil
      have hmem : p ∈ (runSearch has_db pref ∅ contacts).1.filter
          (fun p => p.1.import_id = id) :=
        List.mem_filter.mpr ⟨hp, by simp [hpid]⟩
      rw [hnil] at hmem
      exact absurd hmem (List.not_mem_nil p)
    obtain ⟨row, hrow, ⟨q, hq, hq1⟩, hdisj⟩ := emitRow_spec _ hgne
    have hrr : r = row := by
      rw [hrow] at hemit
      exact (Option.some.inj hemit).symm
    subst hrr
    have hrowid : r.1.import_id = id := by
      have hqf := List.mem_filter.mp hq
      have h2 : q.1.import_id = id := by simpa using hqf.2
      rw [← hq1, h2]
    rw [hrowid]
    exact hdisj

/-- Witness for C5 at a concrete input: two variants share `import_id` "X"
(two geography guesses for the same row); only the SEATTLE guess matches
(100 cents). The emitted row for "X" is scrutinized through the theorem: its
summary is a maximal matched pair of the group (the left disjunct holds, the
membership hypothesis being discharged by evaluation). -/
theorem searchAndSummarizeContacts_best_witness :
    (∃ s, (some (⟨100⟩ : SearchSummary)) = some s ∧
        ((⟨"JON", "SMITH", some "SEATTLE", some "WA", none, none, "X"⟩ : Contact),
            some s) ∈
          (runSearch (fun _ => true)
              (fun c => if c.city = some "SEATTLE" then some ⟨100⟩ else none) ∅
              [⟨"JON", "SMITH", some "SEATTLE", some "WA", none, none, "X"⟩,
               ⟨"JON", "SMITH", some "TACOMA", some "WA", none, none, "X"⟩]).1.filter
            (fun p => p.1.import_id = "X") ∧
        ∀ p ∈ (runSearch (fun _ => true)
              (fun c => if c.city = some "SEATTLE" then some ⟨100⟩ else none) ∅
              [⟨"JON", "SMITH", some "SEATTLE", some "WA", none, none, "X"⟩,
               ⟨"JON", "SMITH", some "TACOMA", some "WA", none, none, "X"⟩]).1.filter
            (fun p => p.1.import_id = "X"),
          ∀ s2, p.2 = some s2 → s2.total_cents ≤ s.total_cents) ∨
    ((some (⟨100⟩ : SearchSummary)) = none ∧
      (∀ p ∈ (runSearch (fun _ => true)
            (fun c => if c.city = some "SEATTLE" then some ⟨100⟩ else none) ∅
            [⟨"JON", "SMITH", some "SEATTLE", some "WA", none, none, "X"⟩,
             ⟨"JON", "SMITH", some "TACOMA", some "WA", none, none, "X"⟩]).1.filter
          (fun p => p.1.import_id = "X"), p.2 = none) ∧
      ((runSearch (fun _ => true)
            (fun c => if c.city = some "SEATTLE" then some ⟨100⟩ else none) ∅
            [⟨"JON", "SMITH", some "SEATTLE", some "WA", none, none, "X"⟩,
             ⟨"JON", "SMITH", some "TACOMA", some "WA", none, none, "X"⟩]).1.filter
          (fun p => p.1.import_id = "X")).head?.map Prod.fst =
        some ⟨"JON", "SMITH", some "SEATTLE", some "WA", none, none, "X"⟩) :=
  (searchAndSummarizeContacts_best (fun _ => true)
      (fun c => if c.city = some "SEATTLE" then some ⟨100⟩ else none)
      [⟨"JON", "SMITH", some "SEATTLE", some "WA", none, none, "X"⟩,
       ⟨"JON", "SMITH", some "TACOMA", some "WA", none, none, "X"⟩]).2.2
    (⟨"JON", "SMITH", some "SEATTLE", some "WA", none, none, "X"⟩, some ⟨100⟩)
    (by decide)
